import Mathlib

/-!
Verification development for the Deep-detectors-attacks repository.

Images, masks, gradients and noise buffers are modelled as rational-valued
grids (total functions from row/column indices), with explicit dimension
arguments wherever the Python code relies on numpy array shapes.  The frozen
Noiseprint network is abstracted as an opaque per-patch gradient engine,
exactly as the attack code treats it.  The engine constants (stride,
overlap, single-pass capacity limit) are kept as parameters.
-/

namespace DDA

/-- Two-dimensional numeric array (image, gradient, noise, ...). -/
abbrev Grid : Type := ℕ → ℕ → ℚ

/-- Per-patch gradient engine: rows, columns, patch content and target
content to (gradient, scalar loss).  Abstracts
Lots4NoiseprintBase._get_gradient_of_patch, which runs the frozen model. -/
abbrev Engine : Type := ℕ → ℕ → Grid → Grid → Grid × ℚ

/-! ### Patch-tiling gradient recombiner
Embedding of LotsNoiseprint3._get_gradient_of_image
(src/Attacks/Lots/Noiseprint/Lots4Noiseprint3/Lots4Noiseprint3.py). -/

/-- Ceiling division: the number of positions Python range(0, n, S) visits. -/
def ceilDiv (n S : ℕ) : ℕ := (n + S - 1) / S

/-- The stride positions of Python range(0, n, S): 0, S, 2S, ... below n. -/
def tilePositions (S n : ℕ) : List ℕ :=
  (List.range (ceilDiv n S)).map (fun i => i * S)

/-- max(x - overlap, 0): clamped window start (natural subtraction clamps). -/
def windowStart (O x : ℕ) : ℕ := x - O

/-- min(x + slide + overlap, n): clamped window end. -/
def windowEnd (S O n x : ℕ) : ℕ := min (x + S + O) n

/-- Number of rows (resp. columns) of the extracted window. -/
def windowLen (S O n x : ℕ) : ℕ := windowEnd S O n x - windowStart O x

/-- Leading overlap rows/columns dropped from a non-first window's gradient
(the `if x > 0` branch). -/
def dropLen (O x : ℕ) : ℕ := if 0 < x then O else 0

/-- Rows of a window's gradient surviving both the leading-overlap drop and
the truncation patch_gradient[:min(slide, patch.shape[0]), ...]. -/
def keptLen (S O n x : ℕ) : ℕ :=
  min (min S (windowLen S O n x)) (windowLen S O n x - dropLen O x)

/-- Write-back region start along one axis (line 161: buffer[x : ...]). -/
def writeStart (x : ℕ) : ℕ := x

/-- Write-back region end: min(x + slide, image dimension). -/
def writeEnd (S n x : ℕ) : ℕ := min (x + S) n

/-- The sub-grid image[max(x-O,0):.., max(y-O,0):..] as a grid rooted at
(0, 0). -/
def extractPatch (O x y : ℕ) (img : Grid) : Grid :=
  fun i j => img (windowStart O x + i) (windowStart O y + j)

/-- Drop the leading dx rows and dy columns of a patch gradient. -/
def dropLead (dx dy : ℕ) (g : Grid) : Grid :=
  fun i j => g (i + dx) (j + dy)

/-- Element-aligned write of a trimmed patch gradient into the output buffer
region [x, min(x+S, H)) x [y, min(y+S, W)). -/
def writeTile (S H W x y : ℕ) (pg : Grid) (buf : Grid) : Grid :=
  fun p q =>
    if writeStart x ≤ p ∧ p < writeEnd S H x ∧ writeStart y ≤ q ∧ q < writeEnd S W y
    then pg (p - x) (q - y)
    else buf p q

/-- One iteration of the tiling double loop: call the engine on the clamped
window, drop the leading overlap of the returned gradient, write it back
into the output buffer and accumulate the loss. -/
def tileStep (S O H W : ℕ) (engine : Engine) (img tgt : Grid)
    (acc : Grid × ℚ) (xy : ℕ × ℕ) : Grid × ℚ :=
  let pr := windowLen S O H xy.1
  let pc := windowLen S O W xy.2
  let res := engine pr pc (extractPatch O xy.1 xy.2 img) (extractPatch O xy.1 xy.2 tgt)
  let pg := dropLead (dropLen O xy.1) (dropLen O xy.2) res.1
  (writeTile S H W xy.1 xy.2 pg acc.1, acc.2 + res.2)

/-- The (x, y) tile grid traversed by the double loop, x outer, y inner. -/
def tileGrid (S H W : ℕ) : List (ℕ × ℕ) :=
  (tilePositions S H).flatMap (fun x => (tilePositions S W).map (fun y => (x, y)))

/-- Embedding of LotsNoiseprint3._get_gradient_of_image: below the capacity
limit delegate to the engine on the whole image, otherwise tile, trim the
overlap and recombine into a zero-initialised full-image buffer. -/
def get_gradient_of_image (S O L : ℕ) (engine : Engine) (H W : ℕ)
    (image target : Grid) : Grid × ℚ :=
  if H * W < L then
    engine H W image target
  else
    (tileGrid S H W).foldl (tileStep S O H W engine image target)
      ((fun _ _ => (0 : ℚ)), 0)

/-- Claim C5: for every image whose height times width is strictly below the
single-pass capacity limit, _get_gradient_of_image returns exactly the
gradient and loss of the direct single-patch engine call on the whole image;
the tiling path is not taken. -/
theorem single_pass_below_limit (S O L : ℕ) (engine : Engine) (H W : ℕ)
    (image target : Grid) (h : H * W < L) :
    get_gradient_of_image S O L engine H W image target = engine H W image target := by
  simp [get_gradient_of_image, if_pos h]

/-- A small concrete engine used in witnesses: gradient = the patch itself,
loss = rows * columns. -/
def testEngine : Engine := fun h w img _ => (img, (h * w : ℚ))

/-- A small concrete image used in witnesses. -/
def testImage : Grid := fun i j => (i + j : ℚ)

/-- Witness for C5 at a concrete engine and a concrete 2 x 3 image with
capacity limit 7. -/
theorem single_pass_below_limit_witness :
    2 * 3 < 7 ∧
      get_gradient_of_image 1 0 7 testEngine 2 3 testImage (fun _ _ => 0) =
        testEngine 2 3 testImage (fun _ _ => 0) :=
  ⟨by decide,
   single_pass_below_limit 1 0 7 testEngine 2 3 testImage (fun _ _ => 0) (by decide)⟩

/-! ### Claim C1: exact coverage of the tiling write-back -/

lemma lt_ceilDiv_iff (S n i : ℕ) (hS : 0 < S) : i < ceilDiv n S ↔ i * S < n := by
  unfold ceilDiv
  rw [Nat.lt_iff_add_one_le, Nat.le_div_iff_mul_le hS, add_mul, one_mul]
  omega

lemma mem_tilePositions_iff (S n x : ℕ) (hS : 0 < S) :
    x ∈ tilePositions S n ↔ ∃ i, x = i * S ∧ x < n := by
  unfold tilePositions
  simp only [List.mem_map, List.mem_range]
  constructor
  · rintro ⟨i, hi, rfl⟩
    exact ⟨i, rfl, (lt_ceilDiv_iff S n i hS).mp hi⟩
  · rintro ⟨i, rfl, hlt⟩
    exact ⟨i, (lt_ceilDiv_iff S n i hS).mpr hlt, rfl⟩

/-- Along one axis, every pixel index below the image dimension lies in the
write-back interval of exactly one stride position. -/
lemma write_interval_unique_cover (S n : ℕ) (hS : 0 < S) (p : ℕ) (hp : p < n) :
    ∃! x, x ∈ tilePositions S n ∧ writeStart x ≤ p ∧ p < writeEnd S n x := by
  refine ⟨p / S * S, ⟨?_, ?_, ?_⟩, ?_⟩
  · exact (mem_tilePositions_iff S n _ hS).mpr
      ⟨p / S, rfl, lt_of_le_of_lt (Nat.div_mul_le_self p S) hp⟩
  · exact Nat.div_mul_le_self p S
  · have h1 := Nat.lt_div_mul_add (a := p) hS
    unfold writeEnd
    omega
  · rintro x ⟨hx, hle, hlt⟩
    obtain ⟨i, rfl, hxn⟩ := (mem_tilePositions_iff S n x hS).mp hx
    unfold writeStart at hle
    unfold writeEnd at hlt
    have hlt2 : p < i * S + S := lt_of_lt_of_le hlt (min_le_left _ _)
    have hdiv : p / S = i := by
      apply Nat.div_eq_of_lt_le
      · exact hle
      · rw [add_mul, one_mul]; exact hlt2
    rw [hdiv]

/-- Along one axis, at every stride position the trimmed patch gradient has
exactly as many rows/columns as the write-back region, and its first retained
row/column originates at the write-back start. -/
lemma kept_matches_write (S O n x : ℕ) (hS : 0 < S) (hOS : O ≤ S)
    (hx : x ∈ tilePositions S n) :
    keptLen S O n x = writeEnd S n x - writeStart x ∧
      windowStart O x + dropLen O x = writeStart x := by
  obtain ⟨i, rfl, hn⟩ := (mem_tilePositions_iff S n x hS).mp hx
  rcases Nat.eq_zero_or_pos i with hi | hi
  · subst hi
    simp only [Nat.zero_mul] at hn ⊢
    unfold keptLen windowLen windowEnd windowStart dropLen writeEnd writeStart
    simp only [Nat.lt_irrefl, if_false]
    omega
  · have hxS : S ≤ i * S := le_mul_of_one_le_left (Nat.zero_le _) hi
    have hxpos : 0 < i * S := lt_of_lt_of_le hS hxS
    have hOx : O ≤ i * S := le_trans hOS hxS
    unfold keptLen windowLen windowEnd windowStart dropLen writeEnd writeStart
    simp only [if_pos hxpos]
    omega

/-- Claim C1: for every image at least as large as the single-pass capacity
limit, the patch-tiling recombination writes exactly one gradient value to
every pixel: per axis the trimmed gradients exactly fill the write-back
regions (shape match and alignment), and the write-back rectangles of the
tile grid are pairwise disjoint and cover the whole image, so no pixel is
written twice and none is left unwritten. -/
theorem tiling_exact_coverage (S O L H W : ℕ) (hS : 0 < S) (hOS : O ≤ S)
    (_hcap : L ≤ H * W) :
    (∀ x ∈ tilePositions S H,
        keptLen S O H x = writeEnd S H x - writeStart x ∧
          windowStart O x + dropLen O x = writeStart x) ∧
    (∀ y ∈ tilePositions S W,
        keptLen S O W y = writeEnd S W y - writeStart y ∧
          windowStart O y + dropLen O y = writeStart y) ∧
    (∀ p q : ℕ, p < H → q < W →
        ∃! xy : ℕ × ℕ,
          xy ∈ tileGrid S H W ∧
            writeStart xy.1 ≤ p ∧ p < writeEnd S H xy.1 ∧
            writeStart xy.2 ≤ q ∧ q < writeEnd S W xy.2) := by
  refine ⟨fun x hx => kept_matches_write S O H x hS hOS hx,
          fun y hy => kept_matches_write S O W y hS hOS hy,
          fun p q hp hq => ?_⟩
  obtain ⟨x, ⟨hxmem, hxle, hxlt⟩, hxuniq⟩ := write_interval_unique_cover S H hS p hp
  obtain ⟨y, ⟨hymem, hyle, hylt⟩, hyuniq⟩ := write_interval_unique_cover S W hS q hq
  refine ⟨(x, y), ⟨?_, hxle, hxlt, hyle, hylt⟩, ?_⟩
  · unfold tileGrid
    simp only [List.mem_flatMap, List.mem_map]
    exact ⟨x, hxmem, y, hymem, rfl⟩
  · rintro ⟨a, b⟩ ⟨habmem, hale, halt, hble, hblt⟩
    unfold tileGrid at habmem
    simp only [List.mem_flatMap, List.mem_map] at habmem
    obtain ⟨a2, ha2, b2, hb2, heq⟩ := habmem
    obtain ⟨rfl, rfl⟩ := Prod.mk.injEq .. ▸ heq
    have h1 := hxuniq a2 ⟨ha2, hale, halt⟩
    have h2 := hyuniq b2 ⟨hb2, hble, hblt⟩
    simp [h1, h2]

/-- Witness for C1: stride 2, overlap 1, capacity limit 4, image 5 x 4. -/
theorem tiling_exact_coverage_witness :
    (0 < 2 ∧ 1 ≤ 2 ∧ 4 ≤ 5 * 4) ∧
      ((∀ x ∈ tilePositions 2 5,
          keptLen 2 1 5 x = writeEnd 2 5 x - writeStart x ∧
            windowStart 1 x + dropLen 1 x = writeStart x) ∧
      (∀ y ∈ tilePositions 2 4,
          keptLen 2 1 4 y = writeEnd 2 4 y - writeStart y ∧
            windowStart 1 y + dropLen 1 y = writeStart y) ∧
      (∀ p q : ℕ, p < 5 → q < 4 →
          ∃! xy : ℕ × ℕ,
            xy ∈ tileGrid 2 5 4 ∧
              writeStart xy.1 ≤ p ∧ p < writeEnd 2 5 xy.1 ∧
              writeStart xy.2 ≤ q ∧ q < writeEnd 2 4 xy.2)) :=
  ⟨⟨by decide, by decide, by decide⟩,
   tiling_exact_coverage 2 1 4 5 4 (by decide) (by decide) (by decide)⟩

/-! ### normalize_gradient (src/Attacks/Lots/Noiseprint/Lots4NoiseprintBase.py,
lines 28-45), for claims C4 and C10. -/

/-- The in-place border zeroing performed on the caller's array when
margin > 0: rows [0, m) and [H-m, H), columns [0, m) and [W-m, W) are set to
0 (Python negative-slice clamping coincides with natural subtraction). -/
def afterMarginZero (H W m : ℕ) (g : Grid) : Grid :=
  fun i j => if i < m ∨ H - m ≤ i ∨ j < m ∨ W - m ≤ j then 0 else g i j

/-- np.max(np.abs(gradient)) over an H x W array (the infinity norm). -/
def infNorm (H W : ℕ) (g : Grid) : ℚ :=
  ((List.range H).map
    (fun i => ((List.range W).map (fun j => |g i j|)).foldl max 0)).foldl max 0

/-- Embedding of normalize_gradient with its frame effect made explicit: the
first component is the state of the caller's array after the call (mutated in
place when margin > 0, untouched otherwise), the second is the freshly
allocated array the function returns, obtained by dividing by the infinity
norm.  No guard is present around that division. -/
def normalize_gradient_call (H W m : ℕ) (g : Grid) : Grid × Grid :=
  let g1 := if 0 < m then afterMarginZero H W m g else g
  (g1, fun i j => g1 i j / infNorm H W g1)

/-- The divisor normalize_gradient uses: the infinity norm of the (possibly
border-zeroed) gradient. -/
def normalizeDivisor (H W m : ℕ) (g : Grid) : ℚ :=
  infNorm H W (normalize_gradient_call H W m g).1

/-- Claim C4 is a code bug: on a gradient whose post-margin infinity norm is
zero (here the uniform all-ones 4 x 4 gradient with margin 2), the divisor
normalize_gradient divides by is exactly 0 — there is no guard in the code,
so the float computation performs 0/0 and fills the result with NaN, instead
of the guarded no-effective-perturbation step the spec requires. -/
theorem normalize_gradient_divides_by_zero :
    normalizeDivisor 4 4 2 (fun _ _ => 1) = 0 := by decide

/-- Claim C10: normalize_gradient aliases its argument.  For margin m > 0 the
call zeroes the m-wide border of the caller's H x W array in place, so after
the call every border entry of the original array is 0; for m = 0 the
caller's array is left unmodified and only a fresh array, scaled by the
infinity norm, is returned. -/
theorem normalize_gradient_frame (H W m : ℕ) (g : Grid) (i j : ℕ) :
    (0 < m → i < H → j < W → (i < m ∨ H - m ≤ i ∨ j < m ∨ W - m ≤ j) →
      (normalize_gradient_call H W m g).1 i j = 0) ∧
    (m = 0 →
      (normalize_gradient_call H W m g).1 = g ∧
        (normalize_gradient_call H W m g).2 =
          fun a b => g a b / infNorm H W g) := by
  constructor
  · intro hm _ _ hborder
    simp only [normalize_gradient_call, if_pos hm, afterMarginZero]
    exact if_pos hborder
  · intro hm
    subst hm
    simp only [normalize_gradient_call, Nat.lt_irrefl, if_false]
    exact ⟨trivial, trivial⟩

/-- Witness for C10 on a concrete 3 x 3 all-ones array: with margin 1 the
caller's array has its corner zeroed in place; with margin 0 it is untouched. -/
theorem normalize_gradient_frame_witness :
    (normalize_gradient_call 3 3 1 (fun _ _ => 1)).1 0 1 = 0 ∧
      (normalize_gradient_call 3 3 0 (fun _ _ => 1)).1 = fun _ _ => (1 : ℚ) :=
  ⟨(normalize_gradient_frame 3 3 1 (fun _ _ => 1) 0 1).1 (by decide) (by decide)
      (by decide) (by decide),
   ((normalize_gradient_frame 3 3 0 (fun _ _ => 1) 0 0).2 rfl).1⟩

/-! ### Claim C3: additive versus non-additive noise accumulation
(BaseIterativeAttack.execute, src/Attacks/BaseIterativeAttack.py lines 59-74,
together with the noise accumulator of Lots4NoiseprintBase._attack_step). -/

/-- The noise accumulator across a run: each step first discards the previous
perturbation when the attack is non-additive (the execute loop restarts the
attacked image from the pristine image), then adds the step's normalized
gradient scaled by alpha. -/
def executeNoise (additive : Bool) (alpha : ℚ) (grads : List Grid) : Grid :=
  grads.foldl
    (fun acc g => fun i j => (if additive then acc i j else 0) + alpha * g i j)
    (fun _ _ => 0)

/-- Claim C3: in a 3-step run where every step computes the identical
gradient g and alpha = 1, additive mode ends with accumulated noise g+g+g,
while non-additive mode (restarting from the pristine image each step) ends
with final noise equal to g alone. -/
theorem additive_vs_non_additive (g : Grid) :
    executeNoise true 1 [g, g, g] = (fun i j => g i j + g i j + g i j) ∧
      executeNoise false 1 [g, g, g] = g := by
  constructor
  · funext i j
    simp [executeNoise]
  · funext i j
    simp [executeNoise]

/-! ### Claim C9: quality-factor selection
(Lots4NoiseprintBase.__init__ lines 72-81 and attack_image.py lines 29-34). -/

/-- Embedding of the quality-factor selection: a missing (None) or falsy (0)
or out-of-range quality factor triggers estimation from the image file
(jpeg_quality_of_file, whose failure is modelled by fileQ = none); 101 is
used only when that estimation raises. -/
def select_quality : Option ℤ → Option ℤ → ℤ
  | some q, fileQ =>
      if q = 0 ∨ q < 51 ∨ 101 < q then fileQ.getD 101 else q
  | none, fileQ => fileQ.getD 101

/-- Counterexample to claim C9 as stated: with the out-of-range quality
factor 40 and an image file whose estimated quality is 85, the loaded model
quality is 85, not the claimed default 101. -/
theorem select_quality_not_always_default :
    select_quality (some 40) (some 85) = 85 ∧ (85 : ℤ) ≠ 101 := by
  constructor
  · decide
  · decide

/-- Claim C9 amended: a missing, falsy or out-of-range quality factor falls
back to the quality estimated from the image file, and to the default 101
only when that estimation is unavailable; an in-range non-zero value is used
as given. -/
theorem select_quality_fallback (q : ℤ) (fileQ : Option ℤ) :
    (q = 0 ∨ q < 51 ∨ 101 < q → select_quality (some q) fileQ = fileQ.getD 101) ∧
      select_quality none fileQ = fileQ.getD 101 ∧
      (¬q = 0 → 51 ≤ q → q ≤ 101 → select_quality (some q) fileQ = q) := by
  refine ⟨fun h => ?_, rfl, fun h0 h1 h2 => ?_⟩
  · simp only [select_quality, if_pos h]
  · have : ¬(q = 0 ∨ q < 51 ∨ 101 < q) := by omega
    simp only [select_quality, if_neg this]

/-- Witness for the amended C9: quality 40 with readable file quality 85
gives 85; quality 95 is kept; a missing quality with unreadable file gives
101. -/
theorem select_quality_fallback_witness :
    select_quality (some 40) (some 85) = (Option.some (85 : ℤ)).getD 101 ∧
      select_quality none (none : Option ℤ) = (Option.none : Option ℤ).getD 101 ∧
      select_quality (some 95) (some 85) = 95 :=
  ⟨(select_quality_fallback 40 (some 85)).1 (by decide),
   (select_quality_fallback 40 (none : Option ℤ)).2.1,
   (select_quality_fallback 95 (some 85)).2.2 (by decide) (by decide) (by decide)⟩

/-! ### Claim C8: Picture channel conversions
(src/Ulitities/Image/Picture.py, to_one_channel lines 27-38 and
to_three_channel lines 40-55). -/

/-- A Picture: a 2-dimensional or 3-dimensional pixel array. -/
inductive Img where
  | two (H W : ℕ) (v : ℕ → ℕ → ℚ) : Img
  | three (H W C : ℕ) (v : ℕ → ℕ → ℕ → ℚ) : Img

/-- Embedding of Picture.to_one_channel: a 2-dim or single-channel 3-dim
image is returned unchanged; a 3-or-more-channel image is reduced by the
luminance weights; fewer channels make the indexing raise, which the except
clause turns into IncompatibeShapeException (modelled as error). -/
def to_one_channel (rw gw bw : ℚ) : Img → Except Unit Img
  | .two H W v => .ok (.two H W v)
  | .three H W C v =>
      if C = 1 then .ok (.three H W C v)
      else if 3 ≤ C then
        .ok (.two H W (fun i j => rw * v i j 0 + gw * v i j 1 + bw * v i j 2))
      else .error ()

/-- Embedding of Picture.to_three_channel: a 3-channel image is returned
unchanged.  Otherwise the code allocates a zero H x W x 3 array and assigns
its channel 0 three times in a row (each assignment overwriting the last,
the final one dividing by the blue weight; channels 1 and 2 stay zero), then
falls off the end of the function without a return statement, so the caller
receives None (modelled as ok none).  A 3-dim non-3-channel input makes the
assignment raise a broadcast error, caught and re-raised as
IncompatibeShapeException (modelled as error). -/
def to_three_channel (_rw _gw bw : ℚ) : Img → Except Unit (Option Img)
  | .three H W 3 v => .ok (some (.three H W 3 v))
  | .two _ _ v =>
      let _ar : ℕ → ℕ → ℕ → ℚ := fun i j c => if c = 0 then v i j / bw else 0
      .ok none
  | .three _ _ _ _ => .error ()

/-- Claim C8 is a code bug: on a single-channel image to_three_channel never
returns the array it builds — the function body has no return statement on
that path, so the conversion yields None rather than a three-channel image
(and the array it discards has the weighted data only in channel 0, divided
rather than multiplied by the weights). -/
theorem to_three_channel_returns_no_image :
    to_three_channel (299/1000) (587/1000) (114/1000)
      (.two 2 2 (fun _ _ => 1)) = .ok none := rfl

/-! ### Claim C6: divide_in_patches with force_shape
(src/Ulitities/Image/Picture.py lines 57-128). -/

/-- The coordinate bounds and residual padding of one produced patch. -/
structure PatchRec where
  x_index : ℤ
  x_index_f : ℤ
  y_index : ℤ
  y_index_f : ℤ
  pad_top : ℤ
  pad_right : ℤ
  pad_bottom : ℤ
  pad_left : ℤ
deriving DecidableEq

/-- One iteration of the divide_in_patches double loop at grid position
(x, y): the padded window bounds are computed; each bound falling outside
the image is either a drop (force_shape, the loop continues) or an elastic
adjustment of the bound and its padding amount.  Checks happen in source
order: left, top, right, bottom. -/
def patch_window (H W ps0 ps1 : ℕ) (tp rp bp lp : ℤ) (force : Bool)
    (x y : ℕ) : Option PatchRec :=
  let xi : ℤ := (x : ℤ) - lp
  let yi : ℤ := (y : ℤ) - tp
  let xf : ℤ := (x : ℤ) + ps0 + rp
  let yf : ℤ := (y : ℤ) + ps1 + bp
  if xi < 0 ∧ force = true then none
  else if yi < 0 ∧ force = true then none
  else if (H : ℤ) < xf ∧ force = true then none
  else if (W : ℤ) < yf ∧ force = true then none
  else some
    { x_index := if xi < 0 then 0 else xi
      x_index_f := if (H : ℤ) < xf then (H : ℤ) else xf
      y_index := if yi < 0 then 0 else yi
      y_index_f := if (W : ℤ) < yf then (W : ℤ) else yf
      pad_top := if yi < 0 then tp + yi else tp
      pad_right := if (H : ℤ) < xf then max (rp - (xf - H)) 0 else rp
      pad_bottom := if (W : ℤ) < yf then max (bp - (yf - W)) 0 else bp
      pad_left := if xi < 0 then lp + xi else lp }

/-- Embedding of Picture.divide_in_patches: the double loop strides by the
requested patch shape and collects the windows patch_window keeps. -/
def divide_in_patches (H W ps0 ps1 : ℕ) (tp rp bp lp : ℤ)
    (force : Bool) : List PatchRec :=
  (tilePositions ps0 H).flatMap
    (fun x => (tilePositions ps1 W).filterMap
      (fun y => patch_window H W ps0 ps1 tp rp bp lp force x y))

/-- Claim C6: under force_shape every returned patch has shape exactly the
requested patch shape plus the padding amounts (rows: + left + right,
columns: + top + bottom, matching the code's axis convention) and lies
entirely inside the image; a grid window is dropped exactly when its padded
extent falls outside the image bounds. -/
theorem divide_in_patches_force_shape (H W ps0 ps1 : ℕ) (tp rp bp lp : ℤ)
    (_htp : 0 ≤ tp) (_hrp : 0 ≤ rp) (_hbp : 0 ≤ bp) (_hlp : 0 ≤ lp) :
    (∀ p ∈ divide_in_patches H W ps0 ps1 tp rp bp lp true,
        p.x_index_f - p.x_index = ps0 + rp + lp ∧
          p.y_index_f - p.y_index = ps1 + tp + bp ∧
          0 ≤ p.x_index ∧ p.x_index_f ≤ H ∧ 0 ≤ p.y_index ∧ p.y_index_f ≤ W) ∧
    (∀ x ∈ tilePositions ps0 H, ∀ y ∈ tilePositions ps1 W,
        patch_window H W ps0 ps1 tp rp bp lp true x y = none ↔
          ((x : ℤ) - lp < 0 ∨ (y : ℤ) - tp < 0 ∨
            (H : ℤ) < (x : ℤ) + ps0 + rp ∨ (W : ℤ) < (y : ℤ) + ps1 + bp)) := by
  constructor
  · intro p hp
    simp only [divide_in_patches, List.mem_flatMap, List.mem_filterMap] at hp
    obtain ⟨x, _, y, _, hsome⟩ := hp
    simp only [patch_window, eq_self_iff_true, and_true] at hsome
    split_ifs at hsome with h1 h2 h3 h4
    rw [Option.some.injEq] at hsome
    subst hsome
    dsimp only
    omega
  · intro x _ y _
    simp only [patch_window, eq_self_iff_true, and_true]
    constructor
    · intro h
      split_ifs at h with h1 h2 h3 h4
      · exact Or.inl h1
      · exact Or.inr (Or.inl h2)
      · exact Or.inr (Or.inr (Or.inl h3))
      · exact Or.inr (Or.inr (Or.inr h4))
    · intro h
      split_ifs with h1 h2 h3 h4
      · rfl
      · rfl
      · rfl
      · rfl
      · omega

/-- Witness for C6 on a 4 x 4 image, 2 x 2 patches, left padding 1: the
window at x = 0 is dropped (its padded extent starts at -1) while the window
at (2, 0) is kept with row extent 2 + 0 + 1. -/
theorem divide_in_patches_force_shape_witness :
    ((⟨1, 4, 0, 2, 0, 0, 0, 1⟩ : PatchRec).x_index_f -
        (⟨1, 4, 0, 2, 0, 0, 0, 1⟩ : PatchRec).x_index = 2 + 0 + 1) ∧
      patch_window 4 4 2 2 0 0 0 1 true 0 0 = none :=
  ⟨((divide_in_patches_force_shape 4 4 2 2 0 0 0 1 (by decide) (by decide)
      (by decide) (by decide)).1 ⟨1, 4, 0, 2, 0, 0, 0, 1⟩ (by decide)).1,
   ((divide_in_patches_force_shape 4 4 2 2 0 0 0 1 (by decide) (by decide)
      (by decide) (by decide)).2 0 (by decide) 0 (by decide)).mpr
     (Or.inl (by decide))⟩

/-! ### Claim C7: target-representation construction
(LotsNoiseprint3._generate_target_representation, lines 39-96). -/

/-- The 4-tuple of padding amounts, in the source's (top, right, bottom,
left) order. -/
structure Padding where
  top : ℕ
  right : ℕ
  bottom : ℕ
  left : ℕ

/-- complete_patch_size (Lots4Noiseprint3.py lines 55-56): the requested
patch shape plus the padding amounts, rows getting right+left and columns
getting top+bottom. -/
def complete_patch_size (ps : ℕ × ℕ) (pad : Padding) : ℕ × ℕ :=
  (ps.1 + pad.right + pad.left, ps.2 + pad.top + pad.bottom)

/-- Modelled from the spec: Patch.no_paddings (Ulitities/Image/Patch.py is
not part of src/) — "Strip the padding margin back off the averaged patch
fingerprint": drop the leading left/top padding rows/columns and shrink the
dimensions by the padding amounts on each side. -/
def no_paddings (pad : Padding) (dims : ℕ × ℕ) (a : Grid) : Grid × (ℕ × ℕ) :=
  ((fun i j => a (i + pad.left) (j + pad.top)),
   (dims.1 - pad.left - pad.right, dims.2 - pad.top - pad.bottom))

/-- Embedding of _generate_target_representation, parameterized by the list
of authentic patches and the frozen fingerprint extractor: accumulate
extracted fingerprints divided by the patch count (a running mean), strip
the padding, tile by ceiling-division repeat factors and crop to the image
dimensions.  Returns the content grid together with its dimensions. -/
def generate_target_representation (H W : ℕ) (ps : ℕ × ℕ) (pad : Padding)
    (model : Grid → Grid) (patches : List Grid) : Grid × (ℕ × ℕ) :=
  let target_patch : Grid :=
    patches.foldl
      (fun acc p => fun a b => acc a b + model p a b / (patches.length : ℚ))
      (fun _ _ => 0)
  let stripped := no_paddings pad (complete_patch_size ps pad) target_patch
  ((fun i j => stripped.1 (i % stripped.2.1) (j % stripped.2.2)),
   (min (stripped.2.1 * ceilDiv H stripped.2.1) H,
    min (stripped.2.2 * ceilDiv W stripped.2.2) W))

lemma foldl_mean_apply (model : Grid → Grid) (c : ℚ) (l : List Grid)
    (z : Grid) (i j : ℕ) :
    (l.foldl (fun acc p => fun a b => acc a b + model p a b / c) z) i j =
      z i j + ((l.map (fun p => model p i j / c)).sum) := by
  induction l generalizing z with
  | nil => simp
  | cons head tail ih =>
      simp only [List.foldl_cons, List.map_cons, List.sum_cons]
      rw [ih]
      ring

lemma le_mul_ceilDiv (n p : ℕ) (hp : 0 < p) : n ≤ p * ceilDiv n p := by
  unfold ceilDiv
  have h1 := Nat.div_add_mod (n + p - 1) p
  have h2 := Nat.mod_lt (n + p - 1) hp
  omega

/-- Claim C7: the target representation is invariant under any permutation
of the authentic-patch list (the accumulation is a commutative mean), and
its spatial dimensions exactly match the input image's after tiling and
cropping. -/
theorem target_representation_order_invariant (H W : ℕ) (ps : ℕ × ℕ)
    (pad : Padding) (model : Grid → Grid) (l1 l2 : List Grid)
    (hperm : l1.Perm l2) (_hne : l1 ≠ []) (hp1 : 0 < ps.1) (hp2 : 0 < ps.2) :
    generate_target_representation H W ps pad model l1 =
        generate_target_representation H W ps pad model l2 ∧
      (generate_target_representation H W ps pad model l1).2 = (H, W) := by
  have hlen : l1.length = l2.length := hperm.length_eq
  have e1 : ps.1 + pad.right + pad.left - pad.left - pad.right = ps.1 := by omega
  have e2 : ps.2 + pad.top + pad.bottom - pad.top - pad.bottom = ps.2 := by omega
  constructor
  · simp only [generate_target_representation, no_paddings, complete_patch_size, hlen]
    congr 1
    funext i j
    rw [foldl_mean_apply, foldl_mean_apply]
    exact congrArg (0 + ·) ((hperm.map _).sum_eq)
  · simp only [generate_target_representation, no_paddings, complete_patch_size]
    rw [Prod.mk.injEq]
    constructor
    · rw [e1]
      have := le_mul_ceilDiv H ps.1 hp1
      omega
    · rw [e2]
      have := le_mul_ceilDiv W ps.2 hp2
      omega

/-- Witness for C7: swapping two concrete patches yields the same target
representation, whose dimensions equal the 2 x 2 image's. -/
theorem target_representation_order_invariant_witness :
    generate_target_representation 2 2 (1, 1) ⟨0, 0, 0, 0⟩ (fun g => g)
        [testImage, fun _ _ => 0] =
      generate_target_representation 2 2 (1, 1) ⟨0, 0, 0, 0⟩ (fun g => g)
        [(fun _ _ => 0), testImage] ∧
    (generate_target_representation 2 2 (1, 1) ⟨0, 0, 0, 0⟩ (fun g => g)
        [testImage, fun _ _ => 0]).2 = (2, 2) :=
  target_representation_order_invariant 2 2 (1, 1) ⟨0, 0, 0, 0⟩ (fun g => g)
    [testImage, fun _ _ => 0] [(fun _ _ => 0), testImage]
    (List.Perm.swap _ _ _) (List.cons_ne_nil _ _) (by decide) (by decide)

/-! ### Claim C2: best-noise tracking across a run
(Lots4NoiseprintBase._attack_step lines 213-227 and _on_after_attack_step
lines 106-116). -/

/-- The controller state observed by the best-noise tracking: the recorded
per-step losses, the tracked minimum loss (none models the initial
float inf), the noise accumulator and the best-noise snapshot. -/
structure LotsState where
  lossSteps : List ℚ
  minLoss : Option ℚ
  adversarialNoise : Grid
  bestNoise : Grid

/-- Initial state: no losses, min_loss = inf, zero noise and zero best noise
(BaseAttack.__init__ lines 40-41). -/
def initState : LotsState :=
  ⟨[], none, (fun _ _ => 0), (fun _ _ => 0)⟩

/-- loss < min_loss, where min_loss may still be the initial infinity. -/
def ltMin (l : ℚ) : Option ℚ → Bool
  | none => true
  | some m => decide (l < m)

/-- One attack step: _attack_step appends the step's loss and adds the
scaled normalized gradient (delta) into the accumulator; _on_after_attack_step
then compares the just-recorded loss against min_loss and, on a strict new
minimum, updates min_loss and snapshots the accumulator.  Modelled from the
spec: the snapshot is a copy of the accumulator's current value (the Picture
wrapper taking the copy is not part of src/). -/
def attackStep (s : LotsState) (loss : ℚ) (delta : Grid) : LotsState :=
  let s1 : LotsState :=
    { s with
      lossSteps := s.lossSteps ++ [loss]
      adversarialNoise := fun i j => s.adversarialNoise i j + delta i j }
  if ltMin loss s1.minLoss then
    { s1 with minLoss := some loss, bestNoise := s1.adversarialNoise }
  else s1

/-- A full run: fold the steps (per-step loss and per-step noise delta) from
the initial state. -/
def runAttack (steps : List (ℚ × Grid)) : LotsState :=
  steps.foldl (fun s p => attackStep s p.1 p.2) initState

/-- Minimum of a list of recorded losses (none for an empty list). -/
def listMin : List ℚ → Option ℚ
  | [] => none
  | x :: xs => some (xs.foldl min x)

/-- Order on tracked minima, none being the initial infinity. -/
def optLE : Option ℚ → Option ℚ → Prop
  | _, none => True
  | some a, some b => a ≤ b
  | none, some _ => False

/-- Strict order on tracked minima; false whenever either side is missing. -/
def optLT : Option ℚ → Option ℚ → Prop
  | some a, some b => a < b
  | _, _ => False

/-- The update the step applies to the tracked minimum. -/
def stepMin (acc : Option ℚ) (x : ℚ) : Option ℚ :=
  if ltMin x acc then some x else acc

lemma runAttack_append (l : List (ℚ × Grid)) (p : ℚ × Grid) :
    runAttack (l ++ [p]) = attackStep (runAttack l) p.1 p.2 := by
  unfold runAttack
  rw [List.foldl_append]
  rfl

lemma attackStep_lossSteps (s : LotsState) (a : ℚ) (d : Grid) :
    (attackStep s a d).lossSteps = s.lossSteps ++ [a] := by
  unfold attackStep
  dsimp only
  split <;> rfl

lemma attackStep_noise (s : LotsState) (a : ℚ) (d : Grid) :
    (attackStep s a d).adversarialNoise = fun i j => s.adversarialNoise i j + d i j := by
  unfold attackStep
  dsimp only
  split <;> rfl

lemma attackStep_minLoss (s : LotsState) (a : ℚ) (d : Grid) :
    (attackStep s a d).minLoss = stepMin s.minLoss a := by
  unfold attackStep stepMin
  dsimp only
  split <;> rfl

lemma attackStep_best (s : LotsState) (a : ℚ) (d : Grid) :
    (attackStep s a d).bestNoise =
      if ltMin a s.minLoss then (fun i j => s.adversarialNoise i j + d i j)
      else s.bestNoise := by
  by_cases h : ltMin a s.minLoss = true
  · simp only [attackStep, h, if_true]
  · simp only [attackStep, h, Bool.false_eq_true, if_false]

lemma lossSteps_foldl (l : List (ℚ × Grid)) (s : LotsState) :
    (l.foldl (fun t p => attackStep t p.1 p.2) s).lossSteps =
      s.lossSteps ++ l.map Prod.fst := by
  induction l generalizing s with
  | nil => simp
  | cons p ps ih =>
      simp only [List.foldl_cons, List.map_cons]
      rw [ih, attackStep_lossSteps, List.append_assoc]
      rfl

lemma lossSteps_run (l : List (ℚ × Grid)) :
    (runAttack l).lossSteps = l.map Prod.fst := by
  unfold runAttack
  rw [lossSteps_foldl]
  rfl

lemma minLoss_foldl (l : List (ℚ × Grid)) (s : LotsState) :
    (l.foldl (fun t p => attackStep t p.1 p.2) s).minLoss =
      (l.map Prod.fst).foldl stepMin s.minLoss := by
  induction l generalizing s with
  | nil => rfl
  | cons p ps ih =>
      simp only [List.foldl_cons, List.map_cons]
      rw [ih, attackStep_minLoss]

lemma foldl_stepMin_some (m : ℚ) (xs : List ℚ) :
    xs.foldl stepMin (some m) = some (xs.foldl min m) := by
  induction xs generalizing m with
  | nil => rfl
  | cons x l ih =>
      simp only [List.foldl_cons]
      by_cases h : x < m
      · rw [show stepMin (some m) x = some x by simp [stepMin, ltMin, h],
            show min m x = x from min_eq_right (le_of_lt h)]
        exact ih x
      · rw [show stepMin (some m) x = some m by simp [stepMin, ltMin, h],
            show min m x = m from min_eq_left (le_of_not_lt h)]
        exact ih m

lemma minLoss_run (l : List (ℚ × Grid)) :
    (runAttack l).minLoss = listMin (l.map Prod.fst) := by
  unfold runAttack
  rw [minLoss_foldl]
  cases hmap : l.map Prod.fst with
  | nil => rfl
  | cons x xs =>
      simp only [List.foldl_cons, listMin]
      rw [show stepMin (initState.minLoss) x = some x from rfl]
      exact foldl_stepMin_some x xs

lemma foldl_min_le_init (a : ℚ) (as : List ℚ) : as.foldl min a ≤ a := by
  induction as generalizing a with
  | nil => simp
  | cons x xs ih =>
      simp only [List.foldl_cons]
      exact le_trans (ih (min a x)) (min_le_left a x)

lemma foldl_min_le_mem (a x : ℚ) (as : List ℚ) : x ∈ as → as.foldl min a ≤ x := by
  induction as generalizing a with
  | nil => intro hx; cases hx
  | cons y ys ih =>
      intro hx
      simp only [List.foldl_cons]
      rcases List.mem_cons.mp hx with rfl | h
      · exact le_trans (foldl_min_le_init (min a x) ys) (min_le_right a x)
      · exact ih (min a y) h

lemma listMin_le (L : List ℚ) (m : ℚ) (hm : listMin L = some m) :
    ∀ x ∈ L, m ≤ x := by
  cases L with
  | nil => cases hm
  | cons a as =>
      simp only [listMin, Option.some.injEq] at hm
      subst hm
      intro x hx
      rcases List.mem_cons.mp hx with rfl | h
      · exact foldl_min_le_init x as
      · exact foldl_min_le_mem a x as h

lemma stepMin_of_ltMin (M : Option ℚ) (x : ℚ) (h : ltMin x M = true) :
    stepMin M x = some x := by
  simp [stepMin, h]

lemma stepMin_of_not_ltMin (M : Option ℚ) (x : ℚ) (h : ltMin x M = false) :
    stepMin M x = M := by
  simp [stepMin, h]

lemma optLE_stepMin (M : Option ℚ) (x : ℚ) : optLE (stepMin M x) M := by
  cases M with
  | none =>
      rw [stepMin_of_ltMin none x rfl]
      trivial
  | some m =>
      by_cases h : x < m
      · rw [stepMin_of_ltMin (some m) x (by simp [ltMin, h])]
        exact le_of_lt h
      · rw [stepMin_of_not_ltMin (some m) x (by simp [ltMin, h])]
        exact le_refl m

/-- The first-minimum characterization of the best-noise snapshot: at the
end of a non-empty run the snapshot is the accumulator value right after the
earliest step achieving the minimum loss, and every earlier step's loss is
strictly larger. -/
lemma first_min_exists (l : List (ℚ × Grid)) (hne : l ≠ []) :
    ∃ k, k < l.length ∧
      (l.map Prod.fst)[k]? = (runAttack l).minLoss ∧
      (runAttack l).bestNoise = (runAttack (l.take (k + 1))).adversarialNoise ∧
      ∀ j < k, optLT ((runAttack l).minLoss) ((l.map Prod.fst)[j]?) := by
  induction l using List.reverseRecOn with
  | nil => exact absurd rfl hne
  | append_singleton l p ih =>
      have hmin : (runAttack (l ++ [p])).minLoss =
          stepMin ((runAttack l).minLoss) p.1 := by
        rw [runAttack_append, attackStep_minLoss]
      have hbest : (runAttack (l ++ [p])).bestNoise =
          if ltMin p.1 ((runAttack l).minLoss)
          then (fun i j => (runAttack l).adversarialNoise i j + p.2 i j)
          else (runAttack l).bestNoise := by
        rw [runAttack_append, attackStep_best]
      have hnoise : (runAttack (l ++ [p])).adversarialNoise =
          fun i j => (runAttack l).adversarialNoise i j + p.2 i j := by
        rw [runAttack_append, attackStep_noise]
      have hmap : (l ++ [p]).map Prod.fst = l.map Prod.fst ++ [p.1] := by
        simp
      cases hb : ltMin p.1 ((runAttack l).minLoss) with
      | true =>
          refine ⟨l.length, ?_, ?_, ?_, ?_⟩
          · simp
          · rw [hmap, hmin, stepMin_of_ltMin _ _ hb]
            have : (l.map Prod.fst).length = l.length := List.length_map _ _
            rw [← this]
            exact List.getElem?_concat_length _ _
          · rw [hbest, hb, if_pos rfl, ← hnoise]
            have hlen : (l ++ [p]).length ≤ l.length + 1 := by simp
            rw [List.take_of_length_le hlen]
          · intro j hj
            rw [hmap, hmin, stepMin_of_ltMin _ _ hb]
            have hjmap : j < (l.map Prod.fst).length := by
              rw [List.length_map]; exact hj
            rw [List.getElem?_append_left hjmap, List.getElem?_eq_getElem hjmap]
            have hlne : l.map Prod.fst ≠ [] := by
              intro hcon
              rw [hcon] at hjmap
              exact absurd hjmap (by simp)
            obtain ⟨m, hm⟩ : ∃ m, listMin (l.map Prod.fst) = some m := by
              cases hL : l.map Prod.fst with
              | nil => exact absurd hL hlne
              | cons a as => exact ⟨as.foldl min a, rfl⟩
            have hpm : p.1 < m := by
              rw [minLoss_run, hm] at hb
              simpa [ltMin] using hb
            have hmx : m ≤ (l.map Prod.fst)[j] :=
              listMin_le _ m hm _ (List.getElem_mem hjmap)
            exact lt_of_lt_of_le hpm hmx
      | false =>
          have hlneq : l ≠ [] := by
            intro hcon
            rw [hcon] at hb
            simp [runAttack, initState, ltMin] at hb
          obtain ⟨k, hk, hget, hbestk, hearly⟩ := ih hlneq
          refine ⟨k, ?_, ?_, ?_, ?_⟩
          · simp only [List.length_append, List.length_singleton]
            omega
          · have hkmap : k < (l.map Prod.fst).length := by
              rw [List.length_map]; exact hk
            rw [hmap, hmin, stepMin_of_not_ltMin _ _ hb,
                List.getElem?_append_left hkmap]
            exact hget
          · rw [hbest, hb, if_neg Bool.false_ne_true,
                List.take_append_of_le_length (by omega : k + 1 ≤ l.length)]
            exact hbestk
          · intro j hj
            have hjmap : j < (l.map Prod.fst).length := by
              rw [List.length_map]; omega
            rw [hmap, hmin, stepMin_of_not_ltMin _ _ hb,
                List.getElem?_append_left hjmap]
            exact hearly j hj

/-- Claim C2: across a run, the tracked minimum loss is non-increasing step
to step and at termination equals the minimum of all recorded per-step
losses; the best-noise snapshot is replaced exactly when a step's recorded
loss is a strict new minimum; and the final best-noise artifact is the value
of the noise accumulator right after the earliest minimum-loss step (not
necessarily the last step's noise). -/
theorem best_noise_tracking (steps : List (ℚ × Grid)) (p : ℚ × Grid) :
    optLE ((runAttack (steps ++ [p])).minLoss) ((runAttack steps).minLoss) ∧
    (runAttack steps).lossSteps = steps.map Prod.fst ∧
    (runAttack steps).minLoss = listMin (steps.map Prod.fst) ∧
    ((runAttack (steps ++ [p])).bestNoise =
      if ltMin p.1 ((runAttack steps).minLoss)
      then (runAttack (steps ++ [p])).adversarialNoise
      else (runAttack steps).bestNoise) ∧
    (steps ≠ [] → ∃ k, k < steps.length ∧
      (steps.map Prod.fst)[k]? = (runAttack steps).minLoss ∧
      (runAttack steps).bestNoise =
        (runAttack (steps.take (k + 1))).adversarialNoise ∧
      ∀ j < k, optLT ((runAttack steps).minLoss) ((steps.map Prod.fst)[j]?)) := by
  refine ⟨?_, lossSteps_run steps, minLoss_run steps, ?_, first_min_exists steps⟩
  · rw [runAttack_append, attackStep_minLoss]
    exact optLE_stepMin _ _
  · rw [runAttack_append, attackStep_best, attackStep_noise]

/-- A concrete two-step run used in the C2 witness: losses 5 then 3. -/
def testSteps : List (ℚ × Grid) := [(5, fun _ _ => 1), (3, fun _ _ => 2)]

/-- The concrete third step of the C2 witness: loss 4 (not a new minimum). -/
def testStep3 : ℚ × Grid := (4, fun _ _ => 3)

/-- Witness for C2 on the concrete run: the tracked minimum does not
increase when the loss-4 step is appended, it equals the minimum of the
recorded losses, and the first-minimum step index exists. -/
theorem best_noise_tracking_witness :
    optLE ((runAttack (testSteps ++ [testStep3])).minLoss)
        ((runAttack testSteps).minLoss) ∧
      (runAttack testSteps).minLoss = listMin (testSteps.map Prod.fst) ∧
      (∃ k, k < testSteps.length ∧
        (testSteps.map Prod.fst)[k]? = (runAttack testSteps).minLoss ∧
        (runAttack testSteps).bestNoise =
          (runAttack (testSteps.take (k + 1))).adversarialNoise ∧
        ∀ j < k, optLT ((runAttack testSteps).minLoss)
          ((testSteps.map Prod.fst)[j]?)) :=
  ⟨(best_noise_tracking testSteps testStep3).1,
   (best_noise_tracking testSteps testStep3).2.2.1,
   (best_noise_tracking testSteps testStep3).2.2.2.2
     (by unfold testSteps; exact List.cons_ne_nil _ _)⟩

end DDA
